import Mathlib

/-!
# Verification of the SQUANCH concurrency / networking core

Shallow embedding of the SQUANCH quantum-network simulator.  The repository
ships the demo protocols (quantum teleportation, superdense coding, Shor
error correction) and the documentation of the core `Agent` / `Channel` /
`QStream` modules; the demo circuits and error models below are translated
from that source, while the core channel, clock and results-sink semantics
are modelled from the specification (the corresponding library modules are
not part of the documented source tree).

Time is measured in microseconds, represented by rationals.  Quantum states
are embedded as unnormalized integer amplitude vectors: gates are written
with integer entries (the Hadamard without its `1/√2` factor), so a circuit
containing `h` Hadamard gates scales the represented state by `(√2)^h`; two
states describe the same physical state when they are proportional by a
positive scale.
-/

namespace Squanch

/-! ## Agent logical clocks (spec-modelled) -/

/-- Modelled from the spec: an agent's timing state — its logical clock
(simulated elapsed time, μs) and its per-item transmission time
`pulseLength`.  The `Agent` class itself is not in the source tree. -/
structure AgentClock where
  clock : ℚ
  pulseLength : ℚ
  deriving Repr, DecidableEq

/-- Modelled from the spec: the logical-clock update rule on send,
`senderClock += itemCount × pulseLength`.  The channel's physical `length`
is threaded through unused, to state that the update is independent of it. -/
def sendClockUpdate (a : AgentClock) (itemCount : ℕ) (length : ℚ) : AgentClock :=
  let _ := length
  { a with clock := a.clock + itemCount * a.pulseLength }

/-- Modelled from the spec: the timestamp a channel stamps on an item in
transit — the sender's current logical clock plus the propagation delay. -/
def deliveryTimestamp (senderSendTimestamp propagationDelay : ℚ) : ℚ :=
  senderSendTimestamp + propagationDelay

/-- Modelled from the spec: the logical-clock update rule on receive,
`receiverClock = max(receiverClock, senderSendTimestamp + propagationDelay)`. -/
def recvClockUpdate (receiverClock deliveryTime : ℚ) : ℚ :=
  max receiverClock deliveryTime

/-! ## Channel FIFO semantics (spec-modelled)

A receiving agent `B` is connected to two distinct peers `A` and `C`, each
over its own FIFO channel.  A trace interleaves sends by the peers with
completed receives by `B`; a receive can only complete when the named
peer's queue is non-empty (otherwise it blocks, leaving the state
unchanged). -/

/-- One event in a two-peer trace: a send from peer `A` or `C` to the
common receiver `B`, or a (blocking) receive by `B` from a named peer. -/
inductive NetEvent (α : Type) where
  | sendA (x : α)
  | sendC (x : α)
  | recvA
  | recvC
  deriving Repr, DecidableEq

/-- Modelled from the spec: the state of the two channels into `B` — one
FIFO queue per (sender, receiver) pair — together with the values `B` has
received so far from each peer, in order of receipt. -/
structure NetState (α : Type) where
  queueA : List α
  queueC : List α
  recvdA : List α
  recvdC : List α
  deriving Repr, DecidableEq

/-- Modelled from the spec: `send` enqueues at the tail of the named pair's
queue; `receive` dequeues from the head and blocks (no state change) while
the queue is empty. -/
def netStep {α : Type} (s : NetState α) : NetEvent α → NetState α
  | .sendA x => { s with queueA := s.queueA ++ [x] }
  | .sendC x => { s with queueC := s.queueC ++ [x] }
  | .recvA =>
    match s.queueA with
    | [] => s
    | x :: rest => { s with queueA := rest, recvdA := s.recvdA ++ [x] }
  | .recvC =>
    match s.queueC with
    | [] => s
    | x :: rest => { s with queueC := rest, recvdC := s.recvdC ++ [x] }

/-- Run a trace of events from a state. -/
def netRun {α : Type} (s : NetState α) : List (NetEvent α) → NetState α
  | [] => s
  | e :: es => netRun (netStep s e) es

/-- The empty network state. -/
def netInit {α : Type} : NetState α := ⟨[], [], [], []⟩

/-- The values peer `A` sends to `B` over a trace, in send order. -/
def sentA {α : Type} : List (NetEvent α) → List α
  | [] => []
  | .sendA x :: es => x :: sentA es
  | _ :: es => sentA es

/-! ## Qubits and the single-pass qubit generator -/

/-- A `Qubit` handle as documented: no owned state, only a reference to its
parent system (by index into the shared Hilbert-space arena) and its qubit
index within that system. -/
structure Qubit where
  systemIndex : ℕ
  qubitIndex : ℕ
  deriving Repr, DecidableEq

/-- A specific qubit of a system, requested directly (`qsys.qubit(i)`),
without consuming the generator. -/
def QSystem.qubit (systemIndex i : ℕ) : Qubit := ⟨systemIndex, i⟩

/-- Modelled from the spec: the one-shot cursor behind the `qubits()`
generator of a `QSystem` (the `qubit.py` module is not in the source tree;
§9 of the spec prescribes an explicit cursor that cannot be restarted). -/
structure QubitIter where
  systemIndex : ℕ
  num : ℕ
  cursor : ℕ
  deriving Repr, DecidableEq

/-- A fresh `qubits()` generator for a system of `n` particles. -/
def QSystem.qubitsIter (systemIndex n : ℕ) : QubitIter := ⟨systemIndex, n, 0⟩

/-- Iterate the generator with explicit fuel: each step yields the qubit at
the cursor while `cursor < num`, and yields nothing once exhausted. -/
def QubitIter.drainFuel : ℕ → QubitIter → List Qubit × QubitIter
  | 0, it => ([], it)
  | fuel + 1, it =>
    if it.cursor < it.num then
      let next := QubitIter.drainFuel fuel ⟨it.systemIndex, it.num, it.cursor + 1⟩
      (⟨it.systemIndex, it.cursor⟩ :: next.1, next.2)
    else ([], it)

/-- One complete iteration pass over the generator: the yielded qubits and
the generator state left behind. -/
def QubitIter.drain (it : QubitIter) : List Qubit × QubitIter :=
  QubitIter.drainFuel (it.num - it.cursor) it

/-- The handle obtained by destructuring the qubit sequence, e.g.
`a, _ = qsys.qubits`. -/
def firstHandle (systemIndex n : ℕ) : Option Qubit :=
  ((QSystem.qubitsIter systemIndex n).drain.1).head?

/-! ## The ShorError model (from the quantum-error-correction demo) -/

/-- The mutable state of `ShorError`: `count` tracks which qubit out of 9
we are at, `error_applied` whether another error can still be applied. -/
structure ShorErrorState where
  count : ℕ
  error_applied : Bool
  deriving Repr, DecidableEq

/-- `ShorError.apply` from the demo source.  `draw` is the Bernoulli draw
`np.random.rand() < 0.5`; the returned `Bool` records whether the random
unitary was applied to this qubit (the qubit reference itself passes
through unchanged, and is left as `none` when the item was already lost). -/
def ShorError.apply (s : ShorErrorState) (draw : Bool) (qubit : Option Qubit) :
    Option Qubit × Bool × ShorErrorState :=
  let corrupted := !s.error_applied && qubit.isSome && draw
  let ea := s.error_applied || corrupted
  let c1 := s.count + 1
  if 9 ≤ c1 then (qubit, corrupted, ⟨c1 % 9, false⟩)
  else (qubit, corrupted, ⟨c1, ea⟩)

/-- Thread `ShorError.apply` over a sequence of transmitted items, collecting
which items were corrupted. -/
def runShor (s : ShorErrorState) : List (Bool × Option Qubit) → List Bool × ShorErrorState
  | [] => ([], s)
  | (d, q) :: rest =>
    let step := ShorError.apply s d q
    let next := runShor step.2.2 rest
    (step.2.1 :: next.1, next.2)

/-- Reference behaviour of one group: the first item whose draw succeeds
and whose qubit is present is corrupted; everything after it is spared. -/
def markFirst : List (Bool × Option Qubit) → List Bool
  | [] => []
  | (d, q) :: rest =>
    if q.isSome && d then true :: rest.map (fun _ => false)
    else false :: markFirst rest

/-- A sample group of nine transmitted items with one successful draw. -/
def shorSampleInputs : List (Bool × Option Qubit) :=
  [(false, some ⟨0, 0⟩), (true, none), (true, some ⟨0, 2⟩),
   (true, some ⟨0, 3⟩), (false, some ⟨0, 4⟩), (true, some ⟨0, 5⟩),
   (false, some ⟨0, 6⟩), (true, some ⟨0, 7⟩), (true, some ⟨0, 8⟩)]

/-! ## The shared results sink (spec-modelled) -/

/-- Modelled from the spec: one write to the shared results sink under the
agent's identity; the sink is write-once per key, so a write to a key that
is already present is ignored. -/
def sinkWrite {I P : Type} [DecidableEq I] (m : List (I × P)) (k : I) (v : P) :
    List (I × P) :=
  if (m.lookup k).isSome then m else (k, v) :: m

/-- Modelled from the spec: the sink contents after a completion-ordered
sequence of agent writes (each agent publishes on termination; the order in
which distinct agents reach the sink is arbitrary). -/
def runSink {I P : Type} [DecidableEq I] (order : List (I × P)) : List (I × P) :=
  order.foldl (fun m kv => sinkWrite m kv.1 kv.2) []

/-! ## The error pipeline and loss propagation -/

/-- Modelled from the spec: `ErrorPipeline.process` runs every transform in
declared order, each seeing the previous transform's output; a lost item is
the `none` sentinel. -/
def processPipeline {Q : Type} (ts : List (Option Q → Option Q)) (x : Option Q) :
    Option Q :=
  ts.foldl (fun a t => t a) x

/-- Modelled from the spec: the attenuation transform — with the channel's
fixed per-item loss probability the Bernoulli draw `lost` comes up true and
the item is replaced by the lost sentinel. -/
def attenuate {Q : Type} (lost : Bool) (x : Option Q) : Option Q :=
  if lost then none else x

/-- One iteration of `Bob.run` from the README superdense-coding demo:
`if a is not None and c is not None: ... else: bits.extend([0,0])`.
`measureBits` abstracts the measurement branch `[a.measure(), c.measure()]`. -/
def bobSuperdenseStep {Q : Type} (measureBits : Q → Q → List ℕ) (a c : Option Q) :
    List ℕ :=
  match a, c with
  | some qa, some qc => measureBits qa qc
  | _, _ => [0, 0]

/-! ## Unnormalized state vectors and gates

A state of an `n`-qubit system is a function from basis indices to integer
amplitudes; qubit `k` is bit `k` of the index.  Gates are integer matrices
(the Hadamard is embedded without its `1/√2`). -/

/-- Unnormalized amplitude vector. -/
def Vec := ℕ → ℤ

/-- Pointwise sum of amplitude vectors. -/
def vadd (v w : Vec) : Vec := fun i => v i + w i

/-- Pointwise integer scale of an amplitude vector. -/
def vsmul (a : ℤ) (v : Vec) : Vec := fun i => a * v i

/-- The computational basis vector at index `k`. -/
def basisVec (k : ℕ) : Vec := fun i => if i = k then 1 else 0

/-- Pauli-X on qubit `k`: permutes basis states by flipping bit `k`. -/
def X (k : ℕ) (v : Vec) : Vec := fun i => v (i ^^^ (1 <<< k))

/-- Pauli-Z on qubit `k`: negates amplitudes with bit `k` set. -/
def Z (k : ℕ) (v : Vec) : Vec := fun i => if i.testBit k then -v i else v i

/-- Hadamard on qubit `k`, unnormalized (integer entries `1, 1, 1, -1`). -/
def H (k : ℕ) (v : Vec) : Vec := fun i =>
  if i.testBit k then v (i ^^^ (1 <<< k)) - v i
  else v i + v (i ^^^ (1 <<< k))

/-- Controlled-not with control qubit `c` and target qubit `t`. -/
def CNOT (c t : ℕ) (v : Vec) : Vec := fun i =>
  v (if i.testBit c then i ^^^ (1 <<< t) else i)

/-- Toffoli gate with controls `c₁, c₂` and target `t`. -/
def TOFFOLI (c₁ c₂ t : ℕ) (v : Vec) : Vec := fun i =>
  v (if i.testBit c₁ && i.testBit c₂ then i ^^^ (1 <<< t) else i)

/-- Projection of a state onto measurement outcome `b` of qubit `k`
(the unnormalized post-measurement state). -/
def proj (k : ℕ) (b : Bool) (v : Vec) : Vec := fun i =>
  if i.testBit k = b then v i else 0

/-- The measured bit of qubit `k` in a state of dimension `n` whose
measurement is deterministic: whether outcome 1 has any support. -/
def measureBit (n k : ℕ) (v : Vec) : Bool :=
  decide (∃ i, i < n ∧ (i.testBit k ∧ v i ≠ 0))

/-! ## The quantum-teleportation demo (from source)

Qubits of each three-qubit system: `q = 0` (the state to teleport),
`a = 1` (Alice's Bell half), `b = 2` (Bob's Bell half). -/

/-- The first qubit of a stream system prepared in the classical bit state
`s` (`X` is applied to qubit 0 when the bit is 1, as in the demo). -/
def initTeleport (s : Bool) : Vec :=
  if s then X 0 (basisVec 0) else basisVec 0

/-- Alice's circuit: `distribute_bell_pair` (`H(a); CNOT(a, b)`) followed by
`teleport` entanglement (`CNOT(q, a); H(q)`). -/
def teleportAliceState (v : Vec) : Vec :=
  H 0 (CNOT 0 1 (CNOT 1 2 (H 1 v)))

/-- Collapse after Alice's measurements: `a.measure()` gives `ma` and then
`q.measure()` gives `mz` (the X- and Z-correction bits sent to Bob). -/
def collapseTeleport (ma mz : Bool) (v : Vec) : Vec :=
  proj 0 mz (proj 1 ma v)

/-- Bob's conditional corrections: `if should_apply_x: X(b)` then
`if should_apply_z: Z(b)`. -/
def bobCorrect (ma mz : Bool) (v : Vec) : Vec :=
  let v₁ := if ma then X 2 v else v
  if mz then Z 2 v₁ else v₁

/-- The state held by Bob for one teleported item, given the input bit and
Alice's two measurement outcomes. -/
def teleportFinal (s ma mz : Bool) : Vec :=
  bobCorrect ma mz (collapseTeleport ma mz (teleportAliceState (initTeleport s)))

/-- The whole run: Bob's output list over a stream of input bits, with one
pair of measurement outcomes per item.  The channels have length 0 and the
default error-free models, so each qubit and classical message arrives
unchanged and, by channel FIFO, in order. -/
def teleportRun (bits : List Bool) (oracles : List (Bool × Bool)) : List Bool :=
  (bits.zip oracles).map fun p => measureBit 8 2 (teleportFinal p.1 p.2.1 p.2.2)

/-! ## The Shor-code demo circuits (from source)

Qubit numbering: `psi = 0`, ancillas `q1 … q8 = 1 … 8`. -/

/-- `Alice.shor_encode` from the quantum-error-correction demo, gate for
gate: `CNOT(psi,q3); CNOT(psi,q6); H(psi); H(q3); H(q6); CNOT(psi,q1);
CNOT(psi,q2); CNOT(q3,q4); CNOT(q3,q5); CNOT(q6,q7); CNOT(q6,q8)`. -/
def shor_encode (v : Vec) : Vec :=
  CNOT 6 8 (CNOT 6 7 (CNOT 3 5 (CNOT 3 4 (CNOT 0 2 (CNOT 0 1
    (H 6 (H 3 (H 0 (CNOT 0 6 (CNOT 0 3 v))))))))))

/-- `Bob.shor_decode` from the quantum-error-correction demo, gate for
gate: `CNOT(psi,q1); CNOT(psi,q2); TOFFOLI(q2,q1,psi); CNOT(q3,q4);
CNOT(q3,q5); TOFFOLI(q5,q4,q3); CNOT(q6,q7); CNOT(q6,q8);
TOFFOLI(q7,q8,q6); H(psi); H(q3); H(q6); CNOT(psi,q3); CNOT(psi,q6);
TOFFOLI(q6,q3,psi)`. -/
def shor_decode (v : Vec) : Vec :=
  TOFFOLI 6 3 0 (CNOT 0 6 (CNOT 0 3 (H 6 (H 3 (H 0
    (TOFFOLI 7 8 6 (CNOT 6 8 (CNOT 6 7
      (TOFFOLI 5 4 3 (CNOT 3 5 (CNOT 3 4
        (TOFFOLI 2 1 0 (CNOT 0 2 (CNOT 0 1 v))))))))))))))

/-- A nine-qubit system whose first qubit holds `psi = α|0⟩ + β|1⟩` and
whose eight ancillas are `|0⟩`. -/
def init9 (α β : ℤ) : Vec :=
  vadd (vsmul α (basisVec 0)) (vsmul β (basisVec 1))

/-! ## Density matrices and aliased qubit handles (getting-started doc)

The two-qubit `QSystem` of the aliasing example tracks a `4 × 4` density
matrix; qubit 0 is the most significant bit of the basis index.  Over an
exact field the normalized Hadamard update is
`ρ ↦ (1/2) · (H' ρ H')` with the integer matrix `H' = H ⊗ I`. -/

/-- The unnormalized Hadamard-on-qubit-0 matrix `H ⊗ I` on a two-qubit
system, with integer entries. -/
def HmatZ : Matrix (Fin 4) (Fin 4) ℤ :=
  Matrix.of fun i j =>
    if i.val % 2 = j.val % 2 then
      (if i.val / 2 = 1 ∧ j.val / 2 = 1 then -1 else 1)
    else 0

/-- The same matrix over the exact scalar field of the density matrices. -/
def Hmat (K : Type) [Field K] : Matrix (Fin 4) (Fin 4) K :=
  HmatZ.map (Int.castRingHom K)

/-- The exact density-matrix update for `H` applied to qubit 0 of a
two-qubit system (the two `1/√2` factors combine to the rational `1/2`). -/
def applyH0 {K : Type} [Field K] (ρ : Matrix (Fin 4) (Fin 4) K) :
    Matrix (Fin 4) (Fin 4) K :=
  (2 : K)⁻¹ • (Hmat K * ρ * Hmat K)

/-- The shared arena: one density matrix per system index. -/
def SimState (K : Type) [Field K] := ℕ → Matrix (Fin 4) (Fin 4) K

/-- Applying `H` through a qubit handle mutates the parent system's density
matrix in the shared arena, found through the handle's `systemIndex`. -/
def applyHThrough {K : Type} [Field K] (st : SimState K) (q : Qubit) : SimState K :=
  fun s => if s = q.systemIndex then applyH0 (st s) else st s

/-! ## Auxiliary definitions for the Shor-code proof -/

/-- The Shor encoding of `|0⟩`: the even-signed GHZ-product support
`(b, c, d) ↦ 7b + 56c + 448d`. -/
def mid0 : Vec := fun i =>
  if i = 0 ∨ i = 7 ∨ i = 56 ∨ i = 63 ∨ i = 448 ∨ i = 455 ∨ i = 504 ∨ i = 511
  then 1 else 0

/-- The Shor encoding of `|1⟩`: the same support with sign `(-1)^(b+c+d)`. -/
def mid1 : Vec := fun i =>
  if i = 0 ∨ i = 63 ∨ i = 455 ∨ i = 504 then 1
  else if i = 7 ∨ i = 56 ∨ i = 448 ∨ i = 511 then -1 else 0

/-- Agreement of two amplitude vectors on the 9-qubit index range. -/
def agreeOn (v w : Vec) : Prop := ∀ i, i < 512 → v i = w i

/-! ## Helper lemmas -/

/-- What `B` has received from `A` followed by what is still in flight on
the `A → B` channel is the prior contents plus what `A` sent, in order. -/
theorem netRun_recvdA_queueA {α : Type} (es : List (NetEvent α)) (s : NetState α) :
    (netRun s es).recvdA ++ (netRun s es).queueA
      = s.recvdA ++ s.queueA ++ sentA es := by
  induction es generalizing s with
  | nil => simp [netRun, sentA]
  | cons e es ih =>
    cases e with
    | sendA x => simp [netRun, netStep, ih, sentA]
    | sendC x => simp [netRun, netStep, ih, sentA]
    | recvA =>
      cases hq : s.queueA with
      | nil => simp [netRun, netStep, hq, ih, sentA, hq]
      | cons y rest =>
        have h := ih { s with queueA := rest, recvdA := s.recvdA ++ [y] }
        simp [netRun, netStep, hq, h, sentA]
    | recvC =>
      cases hq : s.queueC with
      | nil => simp [netRun, netStep, hq, ih, sentA]
      | cons y rest => simp [netRun, netStep, hq, ih, sentA]

/-- Full description of one iteration pass of the qubit generator, starting
from an arbitrary cursor. -/
theorem drainFuel_spec (f : ℕ) : ∀ (s n c : ℕ), n - c = f →
    QubitIter.drainFuel f ⟨s, n, c⟩
      = ((List.range' c (n - c)).map (fun i => QSystem.qubit s i), ⟨s, n, max c n⟩) := by
  induction f with
  | zero =>
    intro s n c hf
    have hcn : n ≤ c := by omega
    have : max c n = c := by omega
    simp [QubitIter.drainFuel, hf, this]
  | succ f ih =>
    intro s n c hf
    have hlt : c < n := by omega
    have hrec := ih s n (c + 1) (by omega)
    have hr : n - c = (n - (c + 1)) + 1 := by omega
    simp only [QubitIter.drainFuel, hlt, if_pos, hrec]
    rw [hr, List.range'_succ]
    have : max c n = max (c + 1) n := by omega
    simp [QSystem.qubit, this]

/-- A single `ShorError.apply` call leaves a lost (`none`) item lost. -/
theorem ShorError.apply_none (s : ShorErrorState) (d : Bool) :
    (ShorError.apply s d none).1 = none := by
  unfold ShorError.apply
  by_cases h : 9 ≤ s.count + 1 <;> simp [h]

/-- Once an error has been applied, no further item of the current group is
corrupted, and the state resets when the counter wraps. -/
theorem runShor_suppressed :
    ∀ (inputs : List (Bool × Option Qubit)) (c : ℕ), c < 9 → c + inputs.length = 9 →
      runShor ⟨c, true⟩ inputs = (inputs.map fun _ => false, ⟨0, false⟩) := by
  intro inputs
  induction inputs with
  | nil =>
    intro c hc hlen
    rw [List.length_nil] at hlen
    omega
  | cons p rest ih =>
    intro c hc hlen
    rw [List.length_cons] at hlen
    obtain ⟨d, q⟩ := p
    by_cases h9 : 9 ≤ c + 1
    · have hc8 : c = 8 := by omega
      have hrest : rest = [] := List.length_eq_zero.mp (by omega)
      subst hc8 hrest
      simp [runShor, ShorError.apply]
    · have hrec := ih (c + 1) (by omega) (by omega)
      simp [runShor, ShorError.apply, h9, hrec]

/-- Within one group of nine, starting uncorrupted, exactly the first item
with a successful draw and a present qubit is corrupted, and the state
resets when the counter wraps. -/
theorem runShor_group :
    ∀ (inputs : List (Bool × Option Qubit)) (c : ℕ), c < 9 → c + inputs.length = 9 →
      runShor ⟨c, false⟩ inputs = (markFirst inputs, ⟨0, false⟩) := by
  intro inputs
  induction inputs with
  | nil =>
    intro c hc hlen
    rw [List.length_nil] at hlen
    omega
  | cons p rest ih =>
    intro c hc hlen
    rw [List.length_cons] at hlen
    obtain ⟨d, q⟩ := p
    by_cases hsucc : (q.isSome && d) = true
    · by_cases h9 : 9 ≤ c + 1
      · have hc8 : c = 8 := by omega
        have hrest : rest = [] := List.length_eq_zero.mp (by omega)
        subst hc8 hrest
        simp [runShor, ShorError.apply, markFirst, hsucc]
      · have hrec := runShor_suppressed rest (c + 1) (by omega) (by omega)
        simp [runShor, ShorError.apply, markFirst, hsucc, h9, hrec]
    · by_cases h9 : 9 ≤ c + 1
      · have hc8 : c = 8 := by omega
        have hrest : rest = [] := List.length_eq_zero.mp (by omega)
        subst hc8 hrest
        simp [runShor, ShorError.apply, markFirst, hsucc]
      · have hrec := ih (c + 1) (by omega) (by omega)
        simp [runShor, ShorError.apply, markFirst, hsucc, h9, hrec]

/-- The counter of the Shor error model advances modulo 9 on every call. -/
theorem runShor_count :
    ∀ (inputs : List (Bool × Option Qubit)) (c : ℕ) (ea : Bool), c < 9 →
      (runShor ⟨c, ea⟩ inputs).2.count = (c + inputs.length) % 9 := by
  intro inputs
  induction inputs with
  | nil => intro c ea hc; simp [runShor]; omega
  | cons p rest ih =>
    intro c ea hc
    obtain ⟨d, q⟩ := p
    by_cases h9 : 9 ≤ c + 1
    · have hc8 : c = 8 := by omega
      subst hc8
      have hrec := ih 0 false (by omega)
      simp [runShor, ShorError.apply, hrec]
      omega
    · have hrec : ∀ ea2 : Bool,
          (runShor ⟨c + 1, ea2⟩ rest).2.count = ((c + 1) + rest.length) % 9 :=
        fun ea2 => ih (c + 1) ea2 (by omega)
      simp [runShor, ShorError.apply, h9, hrec]
      omega

/-- At most one item per group is marked by `markFirst`. -/
theorem markFirst_count_le_one (inputs : List (Bool × Option Qubit)) :
    (markFirst inputs).count true ≤ 1 := by
  induction inputs with
  | nil => simp [markFirst]
  | cons p rest ih =>
    obtain ⟨d, q⟩ := p
    by_cases hsucc : (q.isSome && d) = true
    · simp [markFirst, hsucc, List.count_cons]
      exact List.count_eq_zero.mpr (by simp)
    · simp [markFirst, hsucc, List.count_cons]
      exact ih

/-- When some item of the group has a successful draw on a present qubit,
exactly one item is marked by `markFirst`. -/
theorem markFirst_count_eq_one :
    ∀ (inputs : List (Bool × Option Qubit)),
      (∃ p ∈ inputs, p.2.isSome && p.1) → (markFirst inputs).count true = 1 := by
  intro inputs
  induction inputs with
  | nil => rintro ⟨p, hp, -⟩; simp at hp
  | cons p rest ih =>
    rintro ⟨r, hr, hsucc⟩
    obtain ⟨d, q⟩ := p
    by_cases hhead : (q.isSome && d) = true
    · simp [markFirst, hhead, List.count_cons]
      exact List.count_eq_zero.mpr (by simp)
    · rcases List.mem_cons.mp hr with rfl | hmem
      · exact absurd hsucc hhead
      · simp [markFirst, hhead, List.count_cons]
        exact ih ⟨r, hmem, hsucc⟩

/-- Looking up a key in an association list with distinct keys finds the
unique payload stored under it. -/
theorem lookup_mem_nodup {I P : Type} [DecidableEq I] :
    ∀ (l : List (I × P)) (a : I) (p : P),
      (l.map Prod.fst).Nodup → (a, p) ∈ l → l.lookup a = some p := by
  intro l
  induction l with
  | nil => intro a p _ hmem; simp at hmem
  | cons hd tl ih =>
    intro a p hnd hmem
    obtain ⟨b, q⟩ := hd
    rw [List.map_cons, List.nodup_cons] at hnd
    rcases List.mem_cons.mp hmem with heq | htl
    · obtain ⟨rfl, rfl⟩ := Prod.mk.injEq .. ▸ heq
      simp [List.lookup]
    · have hab : a ≠ b := by
        rintro rfl
        exact hnd.1 (List.mem_map.mpr ⟨(a, p), htl, rfl⟩)
      simp only [List.lookup, beq_eq_false_iff_ne.mpr hab]
      exact ih a p hnd.2 htl

/-- Folding fresh-keyed writes into the sink just stacks them up. -/
theorem foldlSink_fresh {I P : Type} [DecidableEq I] :
    ∀ (order : List (I × P)) (m : List (I × P)),
      (order.map Prod.fst).Nodup →
      (∀ k ∈ order.map Prod.fst, m.lookup k = none) →
      order.foldl (fun m kv => sinkWrite m kv.1 kv.2) m = order.reverse ++ m := by
  intro order
  induction order with
  | nil => intro m _ _; simp
  | cons kv rest ih =>
    intro m hnd hfresh
    obtain ⟨k, v⟩ := kv
    rw [List.map_cons, List.nodup_cons] at hnd
    have hk : m.lookup k = none := hfresh k (by simp)
    have hstep : sinkWrite m k v = (k, v) :: m := by
      simp [sinkWrite, hk]
    have hfresh2 : ∀ k2 ∈ rest.map Prod.fst, ((k, v) :: m).lookup k2 = none := by
      intro k2 hk2
      have hne : k2 ≠ k := by rintro rfl; exact hnd.1 hk2
      simp only [List.lookup, beq_eq_false_iff_ne.mpr hne]
      exact hfresh k2 (by simp [hk2])
    calc ((k, v) :: rest).foldl (fun m kv => sinkWrite m kv.1 kv.2) m
        = rest.foldl (fun m kv => sinkWrite m kv.1 kv.2) ((k, v) :: m) := by
          simp [List.foldl_cons, hstep]
      _ = rest.reverse ++ ((k, v) :: m) := ih _ hnd.2 hfresh2
      _ = ((k, v) :: rest).reverse ++ m := by simp

/-- The pipeline leaves a lost item lost when every transform does. -/
theorem processPipeline_none {Q : Type} :
    ∀ (ts : List (Option Q → Option Q)), (∀ t ∈ ts, t none = none) →
      processPipeline ts none = none := by
  intro ts
  induction ts with
  | nil => intro _; rfl
  | cons t rest ih =>
    intro h
    have ht : t none = none := h t (by simp)
    have hrest : ∀ u ∈ rest, u none = none := fun u hu => h u (by simp [hu])
    simpa [processPipeline, ht] using ih hrest

/-! ### Linearity of the embedded gates -/

theorem H_vadd (k : ℕ) (v w : Vec) : H k (vadd v w) = vadd (H k v) (H k w) := by
  funext i
  simp only [H, vadd]
  split <;> ring

theorem H_vsmul (a : ℤ) (k : ℕ) (v : Vec) : H k (vsmul a v) = vsmul a (H k v) := by
  funext i
  simp only [H, vsmul]
  split <;> ring

theorem CNOT_vadd (c t : ℕ) (v w : Vec) :
    CNOT c t (vadd v w) = vadd (CNOT c t v) (CNOT c t w) := rfl

theorem CNOT_vsmul (a : ℤ) (c t : ℕ) (v : Vec) :
    CNOT c t (vsmul a v) = vsmul a (CNOT c t v) := rfl

theorem TOFFOLI_vadd (c₁ c₂ t : ℕ) (v w : Vec) :
    TOFFOLI c₁ c₂ t (vadd v w) = vadd (TOFFOLI c₁ c₂ t v) (TOFFOLI c₁ c₂ t w) := rfl

theorem TOFFOLI_vsmul (a : ℤ) (c₁ c₂ t : ℕ) (v : Vec) :
    TOFFOLI c₁ c₂ t (vsmul a v) = vsmul a (TOFFOLI c₁ c₂ t v) := rfl

/-- The composite Shor circuit is ℤ-linear. -/
theorem shorCircuit_linear (α β : ℤ) (v w : Vec) :
    shor_decode (shor_encode (vadd (vsmul α v) (vsmul β w)))
      = vadd (vsmul α (shor_decode (shor_encode v)))
             (vsmul β (shor_decode (shor_encode w))) := by
  simp only [shor_encode, shor_decode, H_vadd, H_vsmul, CNOT_vadd, CNOT_vsmul,
    TOFFOLI_vadd, TOFFOLI_vsmul]

/-! ### Gates only look at the 9-qubit index block containing their input -/

theorem xor_shift_lt {i k : ℕ} (hi : i < 512) (hk : k < 9) : i ^^^ (1 <<< k) < 512 := by
  have h1 : (1 <<< k) < 512 := by
    rw [Nat.shiftLeft_eq, one_mul]
    calc 2 ^ k < 2 ^ 9 := Nat.pow_lt_pow_right (by norm_num) hk
    _ = 512 := by norm_num
  have := Nat.xor_lt_two_pow (n := 9) (by simpa using hi) (by simpa using h1)
  simpa using this

theorem H_agreeOn {k : ℕ} (hk : k < 9) {v w : Vec} (h : agreeOn v w) :
    agreeOn (H k v) (H k w) := by
  intro i hi
  simp only [H]
  rw [h i hi, h (i ^^^ (1 <<< k)) (xor_shift_lt hi hk)]

theorem CNOT_agreeOn {c t : ℕ} (ht : t < 9) {v w : Vec} (h : agreeOn v w) :
    agreeOn (CNOT c t v) (CNOT c t w) := by
  intro i hi
  simp only [CNOT]
  by_cases hb : i.testBit c
  · simp only [hb, if_true]
    exact h _ (xor_shift_lt hi ht)
  · simp only [hb, if_false]
    exact h i hi

theorem TOFFOLI_agreeOn {c₁ c₂ t : ℕ} (ht : t < 9) {v w : Vec} (h : agreeOn v w) :
    agreeOn (TOFFOLI c₁ c₂ t v) (TOFFOLI c₁ c₂ t w) := by
  intro i hi
  simp only [TOFFOLI]
  by_cases hb : (i.testBit c₁ && i.testBit c₂) = true
  · simp only [hb, if_true]
    exact h _ (xor_shift_lt hi ht)
  · simp only [hb, if_false]
    exact h i hi

/-- The Shor decoding circuit maps states agreeing on the 9-qubit block to
states agreeing on it. -/
theorem shor_decode_agreeOn {v w : Vec} (h : agreeOn v w) :
    agreeOn (shor_decode v) (shor_decode w) := by
  unfold shor_decode
  apply TOFFOLI_agreeOn (by norm_num)
  apply CNOT_agreeOn (by norm_num)
  apply CNOT_agreeOn (by norm_num)
  apply H_agreeOn (by norm_num)
  apply H_agreeOn (by norm_num)
  apply H_agreeOn (by norm_num)
  apply TOFFOLI_agreeOn (by norm_num)
  apply CNOT_agreeOn (by norm_num)
  apply CNOT_agreeOn (by norm_num)
  apply TOFFOLI_agreeOn (by norm_num)
  apply CNOT_agreeOn (by norm_num)
  apply CNOT_agreeOn (by norm_num)
  apply TOFFOLI_agreeOn (by norm_num)
  apply CNOT_agreeOn (by norm_num)
  apply CNOT_agreeOn (by norm_num)
  exact h

/-! ### The Shor circuit on the two basis states, by computation -/

set_option maxRecDepth 100000 in
set_option maxHeartbeats 1000000 in
theorem shor_encode_basis0 : agreeOn (shor_encode (basisVec 0)) mid0 := by
  unfold agreeOn
  decide

set_option maxRecDepth 100000 in
set_option maxHeartbeats 1000000 in
theorem shor_decode_mid0 : agreeOn (shor_decode mid0) (vsmul 8 (basisVec 0)) := by
  unfold agreeOn
  decide

set_option maxRecDepth 100000 in
set_option maxHeartbeats 1000000 in
theorem shor_encode_basis1 : agreeOn (shor_encode (basisVec 1)) mid1 := by
  unfold agreeOn
  decide

set_option maxRecDepth 100000 in
set_option maxHeartbeats 1000000 in
theorem shor_decode_mid1 : agreeOn (shor_decode mid1) (vsmul 8 (basisVec 1)) := by
  unfold agreeOn
  decide

theorem shor_roundtrip_basis0 : agreeOn (shor_decode (shor_encode (basisVec 0))) (vsmul 8 (basisVec 0)) :=
  fun i hi => (shor_decode_agreeOn shor_encode_basis0 i hi).trans (shor_decode_mid0 i hi)

theorem shor_roundtrip_basis1 : agreeOn (shor_decode (shor_encode (basisVec 1))) (vsmul 8 (basisVec 1)) :=
  fun i hi => (shor_decode_agreeOn shor_encode_basis1 i hi).trans (shor_decode_mid1 i hi)

/-! ### Teleportation: per-item determinism -/

/-- For a classical input bit and every pair of measurement outcomes Alice
can observe, the state Bob holds after his corrections is nonzero, has no
support on the opposite outcome of his final measurement, and measures to
the input bit. -/
theorem teleport_item :
    ∀ s ma mz : Bool,
      (∃ i, i < 8 ∧ teleportFinal s ma mz i ≠ 0)
      ∧ (∀ i, i < 8 → proj 2 (!s) (teleportFinal s ma mz) i = 0)
      ∧ measureBit 8 2 (teleportFinal s ma mz) = s := by decide

/-- The whole teleportation stream, for any input bits and any measurement
outcomes, reproduces the input bits in order. -/
theorem teleportRun_eq :
    ∀ (bits : List Bool) (oracles : List (Bool × Bool)),
      bits.length ≤ oracles.length → teleportRun bits oracles = bits := by
  intro bits
  induction bits with
  | nil => intro oracles _; rfl
  | cons b rest ih =>
    intro oracles hlen
    cases oracles with
    | nil => simp at hlen
    | cons o os =>
      have hitem := (teleport_item b o.1 o.2).2.2
      have hrec := ih os (by simpa using hlen)
      simp only [teleportRun, List.zip_cons_cons, List.map_cons] at hrec ⊢
      rw [hitem, hrec]

/-! ### Exact density-matrix algebra for the aliasing example -/

theorem HmatZ_mul_self : HmatZ * HmatZ = (2 : ℤ) • 1 := by decide

theorem Hmat_mul_self {K : Type} [Field K] : Hmat K * Hmat K = (2 : K) • 1 := by
  unfold Hmat
  rw [← Matrix.map_mul, HmatZ_mul_self]
  ext i j
  rw [Matrix.map_apply, Matrix.smul_apply, Matrix.smul_apply, Matrix.one_apply,
    Matrix.one_apply]
  by_cases hij : i = j <;> simp [hij]

/-- Applying the exact Hadamard density-matrix update twice restores the
density matrix (H is self-adjoint and involutive). -/
theorem applyH0_applyH0 {K : Type} [Field K] (h2 : (2 : K) ≠ 0)
    (ρ : Matrix (Fin 4) (Fin 4) K) : applyH0 (applyH0 ρ) = ρ := by
  unfold applyH0
  rw [Matrix.mul_smul, Matrix.smul_mul, smul_smul]
  have hassoc : Hmat K * (Hmat K * ρ * Hmat K) * Hmat K
      = (Hmat K * Hmat K) * ρ * (Hmat K * Hmat K) := by
    simp only [Matrix.mul_assoc]
  rw [hassoc, Hmat_mul_self]
  rw [Matrix.smul_mul, Matrix.mul_smul, Matrix.one_mul, Matrix.mul_one,
    smul_smul, smul_smul]
  have hval : (2 : K)⁻¹ * (2 : K)⁻¹ * 2 * 2 = 1 := by
    field_simp
  rw [hval, one_smul]

/-! ## Claim theorems -/

/-- C1: for every receive event, the receiver's logical clock after the
receive equals `max(receiverClock before, senderSendTimestamp +
propagationDelay)`, a monotonic join, so the post-receive clock is never
less than the pre-receive clock. -/
theorem receive_clock_join (receiverClock senderSendTimestamp propagationDelay : ℚ) :
    recvClockUpdate receiverClock (deliveryTimestamp senderSendTimestamp propagationDelay)
      = max receiverClock (senderSendTimestamp + propagationDelay)
    ∧ receiverClock
        ≤ recvClockUpdate receiverClock (deliveryTimestamp senderSendTimestamp propagationDelay) :=
  ⟨rfl, le_max_left _ _⟩

/-- C2: one pass over a system's qubit sequence yields each of its particle
references exactly once (in index order, without duplicates), and iterating
the exhausted sequence again yields nothing. -/
theorem qubits_single_pass (s n : ℕ) :
    (QSystem.qubitsIter s n).drain.1 = (List.range n).map (fun i => QSystem.qubit s i)
    ∧ (QSystem.qubitsIter s n).drain.1.Nodup
    ∧ ((QSystem.qubitsIter s n).drain.2).drain.1 = [] := by
  have h := drainFuel_spec (n - 0) s n 0 rfl
  have hdrain : (QSystem.qubitsIter s n).drain
      = ((List.range' 0 n).map (fun i => QSystem.qubit s i), ⟨s, n, n⟩) := by
    simpa [QSystem.qubitsIter, QubitIter.drain] using h
  refine ⟨?_, ?_, ?_⟩
  · rw [hdrain, List.range_eq_range']
  · rw [hdrain]
    exact (List.nodup_range' _ _).map (fun a b hab => by
      simpa [QSystem.qubit, Qubit.mk.injEq] using hab)
  · rw [hdrain]
    simp [QubitIter.drain, QubitIter.drainFuel]

/-- C3: per-channel FIFO — over any interleaving of sends from peers `A`
and `C` to `B` with receives by `B`, the values `B` has received from `A`
are exactly an initial segment of the values `A` sent, in send order (so
`x1` sent before `x2` is received before `x2`). -/
theorem channel_fifo {α : Type} (es : List (NetEvent α)) :
    (netRun netInit es).recvdA ++ (netRun netInit es).queueA = sentA es
    ∧ ∃ rest, sentA es = (netRun netInit es).recvdA ++ rest := by
  have h := netRun_recvdA_queueA es netInit
  simp only [netInit, List.nil_append] at h
  exact ⟨h, (netRun netInit es).queueA, h.symm⟩

/-- C4: a lost item propagates as `none` through the rest of the error
pipeline to the receiving agent's `receive`, and the protocol routine
branches on `none` as a valid case, substituting default bits `[0, 0]`
(README demo); in particular the Shor error transform keeps a lost item
lost. -/
theorem loss_propagates_none {Q : Type} (ts : List (Option Q → Option Q))
    (hts : ∀ t ∈ ts, t none = none) (x : Option Q)
    (f : Q → Q → List ℕ) (a c : Option Q) :
    processPipeline (attenuate true :: ts) x = none
    ∧ bobSuperdenseStep f none c = [0, 0]
    ∧ bobSuperdenseStep f a none = [0, 0]
    ∧ ∀ (st : ShorErrorState) (d : Bool), (ShorError.apply st d none).1 = none := by
  refine ⟨?_, ?_, ?_, fun st d => ShorError.apply_none st d⟩
  · have hstep : processPipeline (attenuate true :: ts) x
        = processPipeline ts (attenuate true x) := rfl
    rw [hstep]
    exact processPipeline_none ts hts
  · cases c <;> rfl
  · cases a <;> rfl

/-- C4 witness: a pipeline of attenuation followed by the Shor transform on
a concrete qubit, and Bob's branch on concrete lost items. -/
theorem loss_propagates_none_witness :
    processPipeline (attenuate true :: [fun x => (ShorError.apply ⟨0, false⟩ true x).1])
        (some (QSystem.qubit 0 0)) = none
    ∧ bobSuperdenseStep (fun _ _ => [1, 1]) none (some (QSystem.qubit 0 0)) = [0, 0]
    ∧ bobSuperdenseStep (fun _ _ => [1, 1]) (some (QSystem.qubit 0 0)) none = [0, 0]
    ∧ ∀ (st : ShorErrorState) (d : Bool), (ShorError.apply st d none).1 = none :=
  loss_propagates_none _
    (by
      intro t ht
      rw [List.mem_singleton] at ht
      subst ht
      exact ShorError.apply_none _ _)
    _ _ _ _

/-- C5: the positional corruption transform counts calls modulo 9; within a
group of nine items starting at a fresh state it corrupts exactly the first
item with a successful draw and a present qubit (so at most one item per
group, exactly one whenever some draw succeeds on a present qubit), and the
suppression state resets when the counter wraps. -/
theorem shor_error_group_invariant :
    (∀ inputs : List (Bool × Option Qubit),
        (runShor ⟨0, false⟩ inputs).2.count = inputs.length % 9)
    ∧ ∀ inputs : List (Bool × Option Qubit), inputs.length = 9 →
        runShor ⟨0, false⟩ inputs = (markFirst inputs, ⟨0, false⟩)
        ∧ (markFirst inputs).count true ≤ 1
        ∧ ((∃ p ∈ inputs, p.2.isSome && p.1) → (markFirst inputs).count true = 1) := by
  constructor
  · intro inputs
    simpa using runShor_count inputs 0 false (by norm_num)
  · intro inputs hlen
    exact ⟨runShor_group inputs 0 (by norm_num) (by omega),
      markFirst_count_le_one inputs,
      markFirst_count_eq_one inputs⟩

/-- C5 witness: the group invariant at a concrete group of nine items. -/
theorem shor_error_group_invariant_witness :
    runShor ⟨0, false⟩ shorSampleInputs = (markFirst shorSampleInputs, ⟨0, false⟩)
    ∧ (markFirst shorSampleInputs).count true ≤ 1
    ∧ (markFirst shorSampleInputs).count true = 1 := by
  have h := shor_error_group_invariant.2 shorSampleInputs (by decide)
  exact ⟨h.1, h.2.1, h.2.2 (by decide)⟩

/-- C6: teleporting a stream of ten classical bit states over loss-free
channels — whatever outcomes Alice's two measurements take on each item —
terminates with Bob's output equal to the ten input bits in order. -/
theorem teleportation_end_to_end (bits : List Bool) (oracles : List (Bool × Bool))
    (hb : bits.length = 10) (ho : oracles.length = 10) :
    teleportRun bits oracles = bits :=
  teleportRun_eq bits oracles (by omega)

/-- C6 witness: the demo stream `[1,0,1,0,1,0,1,0,1,0]` with concrete
measurement outcomes. -/
theorem teleportation_end_to_end_witness :
    teleportRun [true, false, true, false, true, false, true, false, true, false]
      (List.replicate 10 (false, false))
      = [true, false, true, false, true, false, true, false, true, false] :=
  teleportation_end_to_end _ _ rfl (by simp)

/-- C7: each send of `n` items advances the sender's clock by exactly
`n × pulseLength`, independently of the channel length; in particular
sending `10^5` items of 10 ps pulse width advances a clock from 1.5 μs to
2.5 μs. -/
theorem send_clock_advance (a : AgentClock) (n : ℕ) (len len2 : ℚ) :
    (sendClockUpdate a n len).clock = a.clock + n * a.pulseLength
    ∧ sendClockUpdate a n len = sendClockUpdate a n len2
    ∧ (sendClockUpdate ⟨3/2, 1/100000⟩ 100000 len).clock = 5/2 := by
  refine ⟨rfl, rfl, ?_⟩
  norm_num [sendClockUpdate]

/-- C8: with every agent writing once under its own identity, the results
sink read after all agents have terminated holds exactly one entry per
outputting agent with that agent's payload, whatever completion order the
writes arrived in. -/
theorem results_sink_complete {I P : Type} [DecidableEq I]
    (writes order : List (I × P)) (hperm : writes.Perm order)
    (hnd : (writes.map Prod.fst).Nodup) :
    (∀ a p, (a, p) ∈ writes → (runSink order).lookup a = some p)
    ∧ (runSink order).length = writes.length := by
  have hnd2 : (order.map Prod.fst).Nodup := ((hperm.map Prod.fst).nodup_iff).mp hnd
  have hrs : runSink order = order.reverse := by
    have h := foldlSink_fresh order [] hnd2 (fun k _ => rfl)
    simpa [runSink] using h
  constructor
  · intro a p hmem
    have hmem2 : (a, p) ∈ order.reverse :=
      List.mem_reverse.mpr (hperm.mem_iff.mp hmem)
    have hnd3 : (order.reverse.map Prod.fst).Nodup := by
      rw [List.map_reverse]
      exact List.nodup_reverse.mpr hnd2
    rw [hrs]
    exact lookup_mem_nodup _ a p hnd3 hmem2
  · rw [hrs, List.length_reverse, hperm.length_eq]

/-- C8 witness: two agents publishing in the opposite order to their
declaration. -/
theorem results_sink_complete_witness :
    ((runSink [("Bob", 20), ("Alice", 10)]).lookup "Bob" = some 20)
    ∧ ((runSink [("Bob", 20), ("Alice", 10)]).lookup "Alice" = some 10)
    ∧ (runSink [("Bob", (20 : ℕ)), ("Alice", 10)]).length = 2 := by
  have h := results_sink_complete [("Alice", (10 : ℕ)), ("Bob", 20)]
    [("Bob", 20), ("Alice", 10)] (by decide) (by decide)
  exact ⟨h.1 "Bob" 20 (by decide), h.1 "Alice" 10 (by decide), h.2⟩

/-- C9: with no channel error in between, Bob's `shor_decode` applied to
the nine qubits produced by Alice's `shor_encode` restores the nine-qubit
state exactly — first qubit back to `psi = α|0⟩ + β|1⟩` and ancillas back
to `|0⟩` — up to the overall factor `8 = (√2)^6` contributed by the six
unnormalized Hadamard gates. -/
theorem shor_decode_left_inverse (α β : ℤ) :
    ∀ i, i < 512 → shor_decode (shor_encode (init9 α β)) i = 8 * init9 α β i := by
  intro i hi
  have hlin := shorCircuit_linear α β (basisVec 0) (basisVec 1)
  have h0 := shor_roundtrip_basis0 i hi
  have h1 := shor_roundtrip_basis1 i hi
  have hsplit : shor_decode (shor_encode (init9 α β)) i
      = α * shor_decode (shor_encode (basisVec 0)) i
        + β * shor_decode (shor_encode (basisVec 1)) i := by
    have hinit : init9 α β = vadd (vsmul α (basisVec 0)) (vsmul β (basisVec 1)) := rfl
    rw [hinit, hlin]
    rfl
  rw [hsplit, h0, h1]
  simp only [vsmul, vadd, init9, basisVec]
  ring

/-- C9 witness: the round trip evaluated at `psi = 2|0⟩ + 3|1⟩`, index 1. -/
theorem shor_decode_left_inverse_witness :
    shor_decode (shor_encode (init9 2 3)) 1 = 8 * init9 2 3 1 :=
  shor_decode_left_inverse 2 3 1 (by norm_num)

/-- C10: the handle destructured from the qubit sequence and the handle
from `qubit(0)` alias the same parent system slot, a gate applied through
either mutates the same shared density matrix, and applying the
self-adjoint `H` once through each handle restores the arena exactly. -/
theorem qubit_handle_alias {K : Type} [Field K] (h2 : (2 : K) ≠ 0)
    (s : ℕ) (st : SimState K) (a a2 : Qubit)
    (ha : firstHandle s 2 = some a) (ha2 : a2 = QSystem.qubit s 0) :
    a = a2
    ∧ applyHThrough st a = applyHThrough st a2
    ∧ ∀ idx, applyHThrough (applyHThrough st a) a2 idx = st idx := by
  have hfh : firstHandle s 2 = some (QSystem.qubit s 0) := rfl
  have haa : a = QSystem.qubit s 0 := Option.some.inj (ha.symm.trans hfh)
  subst ha2
  refine ⟨haa, by rw [haa], ?_⟩
  intro idx
  rw [haa]
  by_cases hidx : idx = s
  · simp [applyHThrough, QSystem.qubit, hidx, applyH0_applyH0 h2]
  · simp [applyHThrough, QSystem.qubit, hidx]

/-- C10 witness: the concrete two-qubit system 0 with the identity density
matrix over ℚ. -/
theorem qubit_handle_alias_witness :
    ((⟨0, 0⟩ : Qubit) = QSystem.qubit 0 0)
    ∧ applyHThrough ((fun _ => 1) : SimState ℚ) ⟨0, 0⟩
        = applyHThrough ((fun _ => 1) : SimState ℚ) (QSystem.qubit 0 0)
    ∧ ∀ idx, applyHThrough (applyHThrough ((fun _ => 1) : SimState ℚ) ⟨0, 0⟩)
        (QSystem.qubit 0 0) idx = ((fun _ => 1) : SimState ℚ) idx :=
  qubit_handle_alias (by norm_num) 0 ((fun _ => 1) : SimState ℚ) ⟨0, 0⟩
    (QSystem.qubit 0 0) rfl rfl

end Squanch
